import Mathlib

/-!
Shallow embedding of `NCAA_Predictor_MLax_2025.py`: a Monte-Carlo simulator of a
single-elimination lacrosse tournament.  Python's global random generator is
modelled as a stream of real draws together with a position counter; each call
to `random.gauss` / `random.random` consumes one value of the stream.  A
`random.random` draw is a uniform value in `[0,1)`; a `random.gauss 0 sd` draw
is an arbitrary real (its distribution plays no role in the claims).  Failures
(`KeyError` from a missing dictionary key, `AssertionError` from `assert`,
`IndexError` from an out-of-range index) are modelled with `Except`.
-/

/-- The state of the pseudo-random generator: an infinite stream of draws and
the position of the next draw. -/
def RNG : Type := (ℕ → ℝ) × ℕ

/-- Consume one random draw. -/
def RNG.draw (g : RNG) : ℝ × RNG := (g.1 g.2, (g.1, g.2 + 1))

/-- The ways the Python code can raise. -/
inductive SimError : Type
  | assertionError
  | keyError
  | indexError
deriving DecidableEq, Repr

/-- `TEAMS`: the configured `(seed, team name)` list. -/
def TEAMS : List (ℕ × String) :=
  [(1, "Cornell"), (2, "Maryland"), (3, "Princeton"), (4, "Ohio State"),
   (5, "Penn State"), (6, "Syracuse"), (7, "Duke"), (8, "North Carolina"),
   (9, "Richmond"), (10, "Georgetown"), (11, "Harvard"), (12, "Colgate"),
   (13, "Notre Dame"), (14, "Towson"), (15, "Air Force"), (16, "Albany")]

/-- `RATINGS`: the configured Elo-style rating of each team, as an association
list (Python dict). -/
def RATINGS : List (String × ℝ) :=
  [("Cornell", 2008), ("Maryland", 1923), ("Princeton", 1870),
   ("Ohio State", 1826), ("Penn State", 1848), ("Syracuse", 1817),
   ("Duke", 1765), ("North Carolina", 1766), ("Richmond", 1815),
   ("Georgetown", 1723), ("Harvard", 1767), ("Colgate", 1666),
   ("Notre Dame", 1806), ("Towson", 1613), ("Air Force", 1535),
   ("Albany", 1567)]

/-- `RATING_NOISE_SD`: the configured per-game noise standard deviation. -/
def RATING_NOISE_SD : ℝ := 15

/-- The Elo logistic formula `1 / (1 + 10 ** (-(d) / 400.0))` applied to a
rating difference `d`. -/
noncomputable def logistic (d : ℝ) : ℝ := 1 / (1 + (10 : ℝ) ^ (-d / 400))

/-- `_win_prob team_a team_b`: probability that `team_a` beats `team_b` from
the Elo ratings, with small Gaussian noise added to each rating when the noise
standard deviation is positive.  A missing team raises `KeyError`.  The store
and the standard deviation are the Python globals `RATINGS` and
`RATING_NOISE_SD`, passed explicitly. -/
noncomputable def winProb (sd : ℝ) (store : List (String × ℝ))
    (team_a team_b : String) (g : RNG) : Except SimError (ℝ × RNG) :=
  match store.lookup team_a, store.lookup team_b with
  | some ra, some rb =>
      if 0 < sd then
        let (na, g1) := g.draw
        let (nb, g2) := g1.draw
        .ok (logistic ((ra + na) - (rb + nb)), g2)
      else
        .ok (logistic (ra - rb), g)
  | _, _ => .error .keyError

/-- `_seed_order pairings`: sort by seed, then interleave
`pairings[i]` with `pairings[-(i+1)]` for `i` in `range(n // 2)`. -/
def seedOrder (pairings : List (ℕ × String)) : List (ℕ × String) :=
  let ps := pairings.mergeSort (fun x y => x.1 ≤ y.1)
  (List.range (ps.length / 2)).flatMap
    (fun i => [ps.getD i (0, ""), ps.getD (ps.length - (i + 1)) (0, "")])

/-- `_play_round teams_in_round`: play one round; the input is a list of
`(seed, name)` in match order (adjacent pairs play).  For each pair the win
probability of the first entry is computed, one uniform draw decides the
winner (`random.random() < p` means the first entry wins).  An odd-length
input raises `IndexError` at the trailing unpaired entry. -/
noncomputable def playRound (sd : ℝ) (store : List (String × ℝ)) :
    List (ℕ × String) → RNG → Except SimError (List (ℕ × String) × RNG)
  | [], g => .ok ([], g)
  | [_], _ => .error .indexError
  | a :: b :: rest, g =>
      match winProb sd store a.2 b.2 g with
      | .error e => .error e
      | .ok (p, g1) =>
          let (u, g2) := g1.draw
          let winner := if u < p then a else b
          match playRound sd store rest g2 with
          | .error e => .error e
          | .ok (ws, g3) => .ok (winner :: ws, g3)

/-- A successful round returns `len // 2` winners. -/
theorem playRound_ok_length {sd : ℝ} {store : List (String × ℝ)} :
    ∀ {l : List (ℕ × String)} {g : RNG} {ws : List (ℕ × String)} {g' : RNG},
      playRound sd store l g = .ok (ws, g') → ws.length = l.length / 2
  | [], _, _, _ => by
      intro h
      simp only [playRound] at h
      cases h
      rfl
  | [_], _, _, _ => by
      intro h
      simp only [playRound] at h
      exact absurd h (by simp)
  | a :: b :: rest, g, ws, g' => by
      intro h
      simp only [playRound] at h
      cases hw : winProb sd store a.2 b.2 g with
      | error e => rw [hw] at h; exact absurd h (by simp)
      | ok pg =>
          rw [hw] at h
          cases hr : playRound sd store rest pg.2.draw.2 with
          | error e => simp only [hr] at h; exact absurd h (by simp)
          | ok wsg =>
              simp only [hr] at h
              cases h
              have ih := playRound_ok_length (l := rest) hr
              simp [ih]
              omega

/-- `while len(current) > 1: current = _play_round(current)`, followed by
reading `current[0]` (an empty list raises `IndexError`). -/
noncomputable def bracketLoop (sd : ℝ) (store : List (String × ℝ)) :
    List (ℕ × String) → RNG → Except SimError ((ℕ × String) × RNG)
  | current, g =>
      if h : 1 < current.length then
        match hp : playRound sd store current g with
        | .error e => .error e
        | .ok (next, g') => bracketLoop sd store next g'
      else
        match current with
        | [] => .error .indexError
        | e :: _ => .ok (e, g)
  termination_by current => current.length
  decreasing_by
    have := playRound_ok_length hp
    omega

/-- `simulate_bracket`: simulate the full tournament once and return the
champion team name.  Asserts that the number of teams is a power of two
(`n > 1 and (n & (n - 1) == 0)`), builds the first-round pairing with
`_seed_order`, then plays rounds until one entry remains. -/
noncomputable def simulateBracket (sd : ℝ) (teams : List (ℕ × String))
    (store : List (String × ℝ)) (g : RNG) : Except SimError (String × RNG) :=
  let n := teams.length
  if 1 < n ∧ n &&& (n - 1) = 0 then
    match bracketLoop sd store (seedOrder teams) g with
    | .error e => .error e
    | .ok (e, g') => .ok (e.2, g')
  else .error .assertionError

/-- One batch: `[simulate_bracket() for _ in range(k)]`. -/
noncomputable def runBatch (sd : ℝ) (teams : List (ℕ × String))
    (store : List (String × ℝ)) : ℕ → RNG → Except SimError (List String × RNG)
  | 0, g => .ok ([], g)
  | k + 1, g =>
      match simulateBracket sd teams store g with
      | .error e => .error e
      | .ok (c, g') =>
          match runBatch sd teams store k g' with
          | .error e => .error e
          | .ok (cs, g'') => .ok (c :: cs, g'')

/-- `for _ in range(full_batches): ... all_results.update(batch)`:
run `m` consecutive batches of `batchSize` runs each, accumulating the
champions in order. -/
noncomputable def runBatches (sd : ℝ) (teams : List (ℕ × String))
    (store : List (String × ℝ)) (batchSize : ℕ) :
    ℕ → RNG → Except SimError (List String × RNG)
  | 0, g => .ok ([], g)
  | m + 1, g =>
      match runBatch sd teams store batchSize g with
      | .error e => .error e
      | .ok (cs, g') =>
          match runBatches sd teams store batchSize m g' with
          | .error e => .error e
          | .ok (cs', g'') => .ok (cs ++ cs', g'')

/-- The champion-accumulation core of `run_large_simulation`: assert
`batch_size > 0`, run `n_runs // batch_size` full batches, then a final
partial batch of `n_runs % batch_size` when the remainder is nonzero.
The returned list carries every completed run's champion in order; the
`Counter` tally is its multiset of elements. -/
noncomputable def runChampions (sd : ℝ) (teams : List (ℕ × String))
    (store : List (String × ℝ)) (nRuns batchSize : ℕ) (g : RNG) :
    Except SimError (List String × RNG) :=
  if 0 < batchSize then
    let fullBatches := nRuns / batchSize
    let remainder := nRuns % batchSize
    match runBatches sd teams store batchSize fullBatches g with
    | .error e => .error e
    | .ok (cs, g') =>
        if remainder ≠ 0 then
          match runBatch sd teams store remainder g' with
          | .error e => .error e
          | .ok (cs', g'') => .ok (cs ++ cs', g'')
        else .ok (cs, g')
  else .error .assertionError

/-- The output table built from the tally:
`sorted(all_results.items(), key=lambda x: x[1], reverse=True)` as rows
`(team, count)`.  `Counter` keys appear in first-insertion order — each
distinct champion at its first occurrence, which is `reverse ∘ dedup ∘
reverse` since `List.dedup` keeps last occurrences — each key paired with its
count; Python's `sorted` with `reverse=True` is a stable descending sort by
count. -/
def outputTable (champs : List String) : List (String × ℕ) :=
  ((champs.reverse.dedup.reverse).map (fun t => (t, champs.count t))).mergeSort
    (fun x y => y.2 ≤ x.2)

/-- `run_large_simulation`: run the batched simulations and render the sorted
table of `(team, championships)` rows (the persisted spreadsheet and the `Win %`
column derived as `round(100 * count / n_runs, 2)` belong to the external
report sink). -/
noncomputable def runLargeSimulation (sd : ℝ) (teams : List (ℕ × String))
    (store : List (String × ℝ)) (nRuns batchSize : ℕ) (g : RNG) :
    Except SimError (List (String × ℕ) × RNG) :=
  match runChampions sd teams store nRuns batchSize g with
  | .error e => .error e
  | .ok (cs, g') => .ok (outputTable cs, g')

/-! ### Facts about the logistic formula -/

theorem rpow_term_pos (d : ℝ) : 0 < (10 : ℝ) ^ (-d / 400) :=
  Real.rpow_pos_of_pos (by norm_num) _

theorem logistic_pos (d : ℝ) : 0 < logistic d := by
  unfold logistic
  positivity

theorem logistic_lt_one (d : ℝ) : logistic d < 1 := by
  unfold logistic
  rw [div_lt_one (by positivity)]
  linarith [rpow_term_pos d]

theorem logistic_neg_eq (d : ℝ) : logistic (-d) = 1 - logistic d := by
  unfold logistic
  rw [neg_neg]
  have hx : (0 : ℝ) < (10 : ℝ) ^ (-d / 400) := rpow_term_pos d
  have hy : (0 : ℝ) < (10 : ℝ) ^ (d / 400) := Real.rpow_pos_of_pos (by norm_num) _
  have hxy : (10 : ℝ) ^ (-d / 400) * (10 : ℝ) ^ (d / 400) = 1 := by
    rw [← Real.rpow_add (by norm_num), show -d / 400 + d / 400 = 0 by ring,
      Real.rpow_zero]
  field_simp
  linear_combination -hxy

theorem logistic_zero : logistic 0 = 1 / 2 := by
  unfold logistic
  norm_num

theorem logistic_gt_half {d : ℝ} (hd : 0 < d) : 1 / 2 < logistic d := by
  unfold logistic
  have hx : (0 : ℝ) < (10 : ℝ) ^ (-d / 400) := rpow_term_pos d
  have hlt : (10 : ℝ) ^ (-d / 400) < 1 := by
    apply Real.rpow_lt_one_of_one_lt_of_neg (by norm_num)
    linarith
  rw [div_lt_div_iff (by norm_num) (by positivity)]
  linarith

theorem logistic_le_of_le {d : ℝ} (hd : d ≤ 800) : logistic d ≤ 100 / 101 := by
  unfold logistic
  have hx : (1 / 100 : ℝ) ≤ (10 : ℝ) ^ (-d / 400) := by
    have h2 : ((10 : ℝ) ^ ((-2 : ℤ) : ℝ)) ≤ (10 : ℝ) ^ (-d / 400) := by
      apply Real.rpow_le_rpow_of_exponent_le (by norm_num)
      push_cast
      linarith
    rwa [Real.rpow_intCast, show ((10 : ℝ) ^ (-2 : ℤ)) = 1 / 100 by norm_num] at h2
  rw [div_le_div_iff (by positivity) (by norm_num)]
  linarith

/-! ### Facts about the win-probability model -/

theorem winProb_zero_eq {store : List (String × ℝ)} {a b : String} {ra rb : ℝ}
    (g : RNG) (ha : store.lookup a = some ra) (hb : store.lookup b = some rb) :
    winProb 0 store a b g = .ok (logistic (ra - rb), g) := by
  unfold winProb
  rw [ha, hb]
  norm_num

theorem winProb_ok {sd : ℝ} {store : List (String × ℝ)} {a b : String}
    (g : RNG) (ha : (store.lookup a).isSome) (hb : (store.lookup b).isSome) :
    ∃ p g', winProb sd store a b g = .ok (p, g') := by
  obtain ⟨ra, hra⟩ := Option.isSome_iff_exists.mp ha
  obtain ⟨rb, hrb⟩ := Option.isSome_iff_exists.mp hb
  unfold winProb
  rw [hra, hrb]
  by_cases hsd : 0 < sd
  · exact ⟨logistic ((ra + g.draw.1) - (rb + g.draw.2.draw.1)), g.draw.2.draw.2,
      by simp [hsd]⟩
  · exact ⟨logistic (ra - rb), g, by simp [hsd]⟩

theorem winProb_error {sd : ℝ} {store : List (String × ℝ)} {a b : String}
    (g : RNG) (h : store.lookup a = none ∨ store.lookup b = none) :
    winProb sd store a b g = .error .keyError := by
  unfold winProb
  rcases h with h | h
  · rw [h]
  · rw [h]
    cases store.lookup a <;> rfl

theorem winProb_value {sd : ℝ} {store : List (String × ℝ)} {a b : String}
    {g g' : RNG} {p : ℝ} (h : winProb sd store a b g = .ok (p, g')) :
    ∃ d, p = logistic d := by
  unfold winProb at h
  cases hra : store.lookup a with
  | none => rw [hra] at h; cases store.lookup b <;> simp at h
  | some ra =>
      cases hrb : store.lookup b with
      | none => rw [hra, hrb] at h; simp at h
      | some rb =>
          rw [hra, hrb] at h
          by_cases hsd : 0 < sd
          · simp [hsd] at h
            exact ⟨_, h.1.symm⟩
          · simp [hsd] at h
            exact ⟨_, h.1.symm⟩

/-! ### Facts about the round simulator -/

theorem playRound_mem {sd : ℝ} {store : List (String × ℝ)} :
    ∀ {l : List (ℕ × String)} {g : RNG} {ws : List (ℕ × String)} {g' : RNG},
      playRound sd store l g = .ok (ws, g') → ∀ w ∈ ws, w ∈ l
  | [], _, _, _ => by
      intro h
      simp only [playRound] at h
      cases h
      simp
  | [_], _, _, _ => by
      intro h
      simp only [playRound] at h
      exact absurd h (by simp)
  | a :: b :: rest, g, ws, g' => by
      intro h
      simp only [playRound] at h
      cases hw : winProb sd store a.2 b.2 g with
      | error e => rw [hw] at h; exact absurd h (by simp)
      | ok pg =>
          rw [hw] at h
          cases hr : playRound sd store rest pg.2.draw.2 with
          | error e => simp only [hr] at h; exact absurd h (by simp)
          | ok wsg =>
              simp only [hr] at h
              cases h
              intro w hw'
              rcases List.mem_cons.mp hw' with h1 | h2
              · subst h1
                by_cases hu : pg.2.draw.1 < pg.1 <;> simp [hu]
              · have := playRound_mem (l := rest) hr w h2
                simp [this]

theorem playRound_isOk {sd : ℝ} {store : List (String × ℝ)} :
    ∀ {l : List (ℕ × String)} (g : RNG), Even l.length →
      (∀ e ∈ l, (store.lookup e.2).isSome) →
      ∃ ws g', playRound sd store l g = .ok (ws, g')
  | [], g, _, _ => ⟨[], g, by simp only [playRound]⟩
  | [_], _, he, _ => by simp at he
  | a :: b :: rest, g, he, hs => by
      obtain ⟨p, g1, hw⟩ :=
        @winProb_ok sd store a.2 b.2 g (hs a (by simp)) (hs b (by simp))
      have he' : Even rest.length := by
        simp only [List.length_cons] at he
        rcases he with ⟨k, hk⟩
        exact ⟨k - 1, by omega⟩
      obtain ⟨ws, g', hr⟩ := @playRound_isOk sd store rest g1.draw.2 he'
        (fun e hee => hs e (by simp [hee]))
      refine ⟨(if g1.draw.1 < p then a else b) :: ws, g', ?_⟩
      simp only [playRound, hw, hr]

/-- Characterisation of the winner list against the run's own generator
states: `gs k` is the state in which match `k` starts, anchored at the input
state (`gs 0 = g`), advanced by exactly the draws of match `k`
(`gs (k + 1) = g1.draw.2` where `g1` is the state `winProb` returns and the
`.draw` is the uniform), and ending at the returned state.  The `k`-th winner
comes from the `k`-th adjacent pair, and it is the even-index entry exactly
when that match's uniform draw is below its computed probability. -/
theorem playRound_getElem {sd : ℝ} {store : List (String × ℝ)} :
    ∀ {l : List (ℕ × String)} {g : RNG} {ws : List (ℕ × String)} {g' : RNG},
      playRound sd store l g = .ok (ws, g') →
      ∃ gs : ℕ → RNG, gs 0 = g ∧ gs ws.length = g' ∧
        ∀ k, k < ws.length →
          ∃ a b w p g1,
            l[2 * k]? = some a ∧ l[2 * k + 1]? = some b ∧ ws[k]? = some w ∧
            winProb sd store a.2 b.2 (gs k) = .ok (p, g1) ∧
            gs (k + 1) = g1.draw.2 ∧
            w = if g1.draw.1 < p then a else b
  | [], g, ws, g' => by
      intro h
      simp only [playRound] at h
      cases h
      refine ⟨fun _ => g, rfl, rfl, ?_⟩
      intro k hk
      simp at hk
  | [_], _, _, _ => by
      intro h
      simp only [playRound] at h
      exact absurd h (by simp)
  | a :: b :: rest, g, ws, g' => by
      intro h
      simp only [playRound] at h
      cases hw : winProb sd store a.2 b.2 g with
      | error e => rw [hw] at h; exact absurd h (by simp)
      | ok pg =>
          rw [hw] at h
          cases hr : playRound sd store rest pg.2.draw.2 with
          | error e => simp only [hr] at h; exact absurd h (by simp)
          | ok wsg =>
              simp only [hr] at h
              cases h
              obtain ⟨gs', h0', hN', hk'⟩ :=
                playRound_getElem (l := rest) hr
              refine ⟨fun k => match k with | 0 => g | k' + 1 => gs' k',
                rfl, ?_, ?_⟩
              · exact hN'
              · intro k hk
                cases k with
                | zero =>
                    exact ⟨a, b, (if pg.2.draw.1 < pg.1 then a else b), pg.1,
                      pg.2, by simp, by simp, by simp, hw, h0', rfl⟩
                | succ k' =>
                    have hk'' : k' < wsg.1.length := by
                      simpa using hk
                    obtain ⟨a', b', w', p', g1, h1, h2, h3, h4, h5, h6⟩ :=
                      hk' k' hk''
                    refine ⟨a', b', w', p', g1, ?_, ?_, ?_, h4, h5, h6⟩
                    · rw [show 2 * (k' + 1) = 2 * k' + 1 + 1 by ring]
                      simpa using h1
                    · rw [show 2 * (k' + 1) + 1 = 2 * k' + 1 + 1 + 1 by ring]
                      simpa using h2
                    · simpa using h3

/-! ### Facts about `_seed_order` -/

theorem flatMap_pair_length {α : Type} (f h : ℕ → α) :
    ∀ (m s : ℕ), ((List.range' s m).flatMap (fun i => [f i, h i])).length = 2 * m
  | 0, _ => by simp
  | m + 1, s => by
      rw [List.range'_succ, List.flatMap_cons]
      simp only [List.length_append, flatMap_pair_length f h m (s + 1),
        List.length_cons, List.length_nil]
      omega

theorem flatMap_pair_getElem {α : Type} (f h : ℕ → α) :
    ∀ (m s k : ℕ), k < m →
      ((List.range' s m).flatMap (fun i => [f i, h i]))[2 * k]? = some (f (s + k)) ∧
      ((List.range' s m).flatMap (fun i => [f i, h i]))[2 * k + 1]? = some (h (s + k))
  | 0, _, k, hk => absurd hk (by omega)
  | m + 1, s, 0, _ => by
      rw [List.range'_succ, List.flatMap_cons]
      simp
  | m + 1, s, k + 1, hk => by
      rw [List.range'_succ, List.flatMap_cons]
      simp only [List.cons_append, List.nil_append]
      have ih := flatMap_pair_getElem f h m (s + 1) k (by omega)
      constructor
      · rw [show 2 * (k + 1) = 2 * k + 1 + 1 by ring, List.getElem?_cons_succ,
          List.getElem?_cons_succ, show s + (k + 1) = s + 1 + k by ring]
        exact ih.1
      · rw [show 2 * (k + 1) + 1 = (2 * k + 1) + 1 + 1 by ring,
          List.getElem?_cons_succ, List.getElem?_cons_succ,
          show s + (k + 1) = s + 1 + k by ring]
        exact ih.2

theorem seedOrder_length (l : List (ℕ × String)) :
    (seedOrder l).length = 2 * (l.length / 2) := by
  simp only [seedOrder]
  rw [List.range_eq_range', flatMap_pair_length, List.length_mergeSort]

theorem seedOrder_mem {l : List (ℕ × String)} :
    ∀ e ∈ seedOrder l, e ∈ l := by
  intro e he
  simp only [seedOrder] at he
  obtain ⟨i, hi, hei⟩ := List.mem_flatMap.mp he
  rw [List.mem_range] at hi
  set ps := l.mergeSort (fun x y => x.1 ≤ y.1) with hps
  have hlen : ps.length = l.length := by simp [hps]
  have hmem : ∀ j, j < ps.length → ps.getD j (0, "") ∈ l := by
    intro j hj
    have : ps.getD j (0, "") = ps[j] := List.getD_eq_getElem ps (0, "") hj
    rw [this]
    exact (List.mergeSort_perm l _).mem_iff.mp (List.getElem_mem hj)
  have hpos : 0 < ps.length := by omega
  rcases List.mem_cons.mp hei with h1 | h2
  · subst h1
    exact hmem i (by omega)
  · rcases List.mem_cons.mp h2 with h3 | h4
    · subst h3
      exact hmem (ps.length - (i + 1)) (by omega)
    · simp at h4

/-- Sorting a list whose seeds are a permutation of `1..N` by seed yields the
seeds in increasing order `1, 2, ..., N`. -/
theorem mergeSort_fst_eq_range' {l : List (ℕ × String)} {N : ℕ}
    (hperm : List.Perm (l.map Prod.fst) (List.range' 1 N)) :
    (l.mergeSort (fun x y => x.1 ≤ y.1)).map Prod.fst = List.range' 1 N := by
  apply List.eq_of_perm_of_sorted (r := (· ≤ ·))
  · exact ((List.mergeSort_perm l _).map Prod.fst).trans hperm
  · have hpw := @List.sorted_mergeSort (ℕ × String)
      (fun x y => decide (x.1 ≤ y.1))
      (fun a b c h1 h2 => by
        simp only [decide_eq_true_eq] at *
        omega)
      (fun a b => by
        simpa using Nat.le_total a.1 b.1) l
    rw [List.Sorted, List.pairwise_map]
    exact hpw.imp (fun h => by simpa using h)
  · exact (List.pairwise_le_range' 1 N 1).imp (fun h => h)

/-- The body of the `for i in range(n // 2)` loop of `_seed_order`, read off
positionally: position `2k` holds the `k`-th sorted entry and position `2k+1`
holds the `k`-th-from-the-end sorted entry. -/
theorem seedOrder_pairs {l : List (ℕ × String)} {N k : ℕ}
    (hperm : List.Perm (l.map Prod.fst) (List.range' 1 N)) (hk : k < N / 2) :
    ∃ e f, (seedOrder l)[2 * k]? = some e ∧ (seedOrder l)[2 * k + 1]? = some f ∧
      e ∈ l ∧ f ∈ l ∧ e.1 = k + 1 ∧ f.1 = N - k := by
  have hlenN : l.length = N := by
    have := hperm.length_eq
    simpa using this
  set ps := l.mergeSort (fun x y => x.1 ≤ y.1) with hps
  have hlen : ps.length = N := by simp [hps, hlenN]
  have hfst : ps.map Prod.fst = List.range' 1 N := mergeSort_fst_eq_range' hperm
  have hNpos : k + 1 ≤ N := by omega
  have hidx := flatMap_pair_getElem
    (fun i => ps.getD i (0, "")) (fun i => ps.getD (ps.length - (i + 1)) (0, ""))
    (ps.length / 2) 0 k (by omega)
  have hget : ∀ i, i < N →
      ps.getD i (0, "") ∈ l ∧ (ps.getD i (0, "")).1 = 1 + i := by
    intro i hi
    have hi' : i < ps.length := by omega
    have hgd : ps.getD i (0, "") = ps[i] := List.getD_eq_getElem ps (0, "") hi'
    constructor
    · rw [hgd]
      exact (List.mergeSort_perm l _).mem_iff.mp (List.getElem_mem hi')
    · rw [hgd]
      have h1 : (List.map Prod.fst ps)[i]? = some (1 + i) := by
        rw [hfst]
        have := @List.getElem?_range' 1 1 i N (by omega)
        simpa using this
      have h2 : (List.map Prod.fst ps)[i]? = some (ps[i].1) := by
        rw [List.getElem?_map, List.getElem?_eq_getElem hi']
        rfl
      exact Option.some.inj (h2.symm.trans h1)
  refine ⟨ps.getD k (0, ""), ps.getD (ps.length - (k + 1)) (0, ""), ?_, ?_, ?_, ?_, ?_, ?_⟩
  · simp only [seedOrder, ← hps]
    rw [List.range_eq_range']
    simpa using hidx.1
  · simp only [seedOrder, ← hps]
    rw [List.range_eq_range']
    simpa using hidx.2
  · exact (hget k (by omega)).1
  · exact (hget (ps.length - (k + 1)) (by omega)).1
  · have := (hget k (by omega)).2
    omega
  · rw [hlen]
    have := (hget (ps.length - (k + 1)) (by omega)).2
    rw [hlen] at this
    omega

/-! ### Facts about the tournament simulator -/

theorem two_pow_and_pred (j : ℕ) : 2 ^ j &&& (2 ^ j - 1) = 0 := by
  apply Nat.eq_of_testBit_eq
  intro i
  rw [Nat.testBit_and, Nat.testBit_two_pow, Nat.testBit_two_pow_sub_one,
    Nat.zero_testBit]
  by_cases h : j = i
  · subst h
    simp
  · simp [h]

theorem bracketLoop_ok {sd : ℝ} {store : List (String × ℝ)} :
    ∀ (j : ℕ) (l : List (ℕ × String)) (g : RNG), l.length = 2 ^ j →
      (∀ e ∈ l, (store.lookup e.2).isSome) →
      ∃ e g', bracketLoop sd store l g = .ok (e, g') ∧ e ∈ l := by
  intro j
  induction j with
  | zero =>
      intro l g hl hs
      simp only [pow_zero] at hl
      match l, hl with
      | [e], _ =>
          refine ⟨e, g, ?_, by simp⟩
          rw [bracketLoop]
          simp
  | succ j ih =>
      intro l g hl hs
      have h1 : 1 < l.length := by
        rw [hl]
        calc 1 < 2 ^ 1 := by norm_num
        _ ≤ 2 ^ (j + 1) := Nat.pow_le_pow_right (by norm_num) (by omega)
      have heven : Even l.length := by
        rw [hl, pow_succ]
        exact ⟨2 ^ j, by ring⟩
      obtain ⟨ws, g', hr⟩ := @playRound_isOk sd store l g heven hs
      have hws_len : ws.length = 2 ^ j := by
        have hh := playRound_ok_length hr
        rw [hl, pow_succ] at hh
        rw [hh]
        omega
      have hws_mem := playRound_mem hr
      obtain ⟨e, g'', hb, hm⟩ := ih ws g' hws_len (fun x hx => hs x (hws_mem x hx))
      refine ⟨e, g'', ?_, hws_mem e hm⟩
      rw [bracketLoop]
      rw [dif_pos h1]
      split
      · rename_i e' heq
        rw [hr] at heq
        exact absurd heq (by simp)
      · rename_i next g2 heq
        rw [hr] at heq
        injection heq with h2
        injection h2 with ha hb'
        subst ha
        subst hb'
        exact hb

theorem simulateBracket_ok {sd : ℝ} {store : List (String × ℝ)}
    {teams : List (ℕ × String)} (g : RNG) (j : ℕ) (hj : 1 ≤ j)
    (hlen : teams.length = 2 ^ j)
    (hs : ∀ e ∈ teams, (store.lookup e.2).isSome) :
    ∃ c g', simulateBracket sd teams store g = .ok (c, g') ∧
      c ∈ teams.map Prod.snd := by
  have hguard : 1 < teams.length ∧ teams.length &&& (teams.length - 1) = 0 := by
    constructor
    · rw [hlen]
      calc 1 < 2 ^ 1 := by norm_num
      _ ≤ 2 ^ j := Nat.pow_le_pow_right (by norm_num) (by omega)
    · rw [hlen]
      exact two_pow_and_pred j
  have hseed_len : (seedOrder teams).length = 2 ^ j := by
    rw [seedOrder_length, hlen]
    rcases j with _ | j'
    · omega
    · rw [pow_succ]
      omega
  obtain ⟨e, g', hb, hm⟩ := bracketLoop_ok j (seedOrder teams) g hseed_len
    (fun x hx => hs x (seedOrder_mem x hx))
  refine ⟨e.2, g', ?_, ?_⟩
  · unfold simulateBracket
    rw [if_pos hguard]
    split
    · rename_i e' heq
      rw [hb] at heq
      exact absurd heq (by simp)
    · rename_i e' g2 heq
      rw [hb] at heq
      injection heq with h2
      injection h2 with ha hb'
      subst ha
      subst hb'
      rfl
  · exact List.mem_map_of_mem Prod.snd (seedOrder_mem e hm)

/-! ### Facts about the aggregation driver -/

theorem runBatch_ok {sd : ℝ} {teams : List (ℕ × String)}
    {store : List (String × ℝ)}
    (hok : ∀ g : RNG, ∃ c g', simulateBracket sd teams store g = .ok (c, g') ∧
      c ∈ teams.map Prod.snd) :
    ∀ (k : ℕ) (g : RNG), ∃ cs g', runBatch sd teams store k g = .ok (cs, g') ∧
      cs.length = k ∧ ∀ c ∈ cs, c ∈ teams.map Prod.snd := by
  intro k
  induction k with
  | zero =>
      intro g
      exact ⟨[], g, rfl, rfl, by simp⟩
  | succ k ih =>
      intro g
      obtain ⟨c, g', hc, hcm⟩ := hok g
      obtain ⟨cs, g'', hcs, hlen, hmem⟩ := ih g'
      refine ⟨c :: cs, g'', ?_, by simp [hlen], ?_⟩
      · simp only [runBatch, hc, hcs]
      · intro x hx
        rcases List.mem_cons.mp hx with h | h
        · subst h; exact hcm
        · exact hmem x h

theorem runBatches_ok {sd : ℝ} {teams : List (ℕ × String)}
    {store : List (String × ℝ)} {batchSize : ℕ}
    (hok : ∀ g : RNG, ∃ c g', simulateBracket sd teams store g = .ok (c, g') ∧
      c ∈ teams.map Prod.snd) :
    ∀ (m : ℕ) (g : RNG), ∃ cs g',
      runBatches sd teams store batchSize m g = .ok (cs, g') ∧
      cs.length = m * batchSize ∧ ∀ c ∈ cs, c ∈ teams.map Prod.snd := by
  intro m
  induction m with
  | zero =>
      intro g
      exact ⟨[], g, rfl, by simp, by simp⟩
  | succ m ih =>
      intro g
      obtain ⟨cs, g', hcs, hlen, hmem⟩ := runBatch_ok hok batchSize g
      obtain ⟨cs', g'', hcs', hlen', hmem'⟩ := ih g'
      refine ⟨cs ++ cs', g'', ?_, ?_, ?_⟩
      · simp only [runBatches, hcs, hcs']
      · simp only [List.length_append, hlen, hlen']
        ring
      · intro x hx
        rcases List.mem_append.mp hx with h | h
        · exact hmem x h
        · exact hmem' x h

theorem runChampions_ok {sd : ℝ} {teams : List (ℕ × String)}
    {store : List (String × ℝ)} {nRuns batchSize : ℕ} (g : RNG)
    (hb : 0 < batchSize)
    (hok : ∀ g : RNG, ∃ c g', simulateBracket sd teams store g = .ok (c, g') ∧
      c ∈ teams.map Prod.snd) :
    ∃ cs g', runChampions sd teams store nRuns batchSize g = .ok (cs, g') ∧
      cs.length = nRuns ∧ ∀ c ∈ cs, c ∈ teams.map Prod.snd := by
  obtain ⟨cs, g', hcs, hlen, hmem⟩ :=
    @runBatches_ok sd teams store batchSize hok (nRuns / batchSize) g
  have hdm : nRuns / batchSize * batchSize + nRuns % batchSize = nRuns := by
    rw [Nat.mul_comm]
    exact Nat.div_add_mod nRuns batchSize
  by_cases hrem : nRuns % batchSize ≠ 0
  · obtain ⟨cs', g'', hcs', hlen', hmem'⟩ :=
      runBatch_ok hok (nRuns % batchSize) g'
    refine ⟨cs ++ cs', g'', ?_, ?_, ?_⟩
    · unfold runChampions
      rw [if_pos hb]
      simp only [hcs, if_pos hrem, hcs']
    · simp only [List.length_append, hlen, hlen']
      omega
    · intro x hx
      rcases List.mem_append.mp hx with h | h
      · exact hmem x h
      · exact hmem' x h
  · refine ⟨cs, g', ?_, ?_, hmem⟩
    · unfold runChampions
      rw [if_pos hb]
      simp only [hcs, if_neg hrem]
    · rw [hlen]
      omega

theorem runLargeSimulation_eq {sd : ℝ} {teams : List (ℕ × String)}
    {store : List (String × ℝ)} {nRuns batchSize : ℕ} {g g' : RNG}
    {cs : List String}
    (h : runChampions sd teams store nRuns batchSize g = .ok (cs, g')) :
    runLargeSimulation sd teams store nRuns batchSize g =
      .ok (outputTable cs, g') := by
  unfold runLargeSimulation
  rw [h]

/-! ### Facts about the output table -/

theorem outputTable_perm (champs : List String) :
    List.Perm (outputTable champs)
      ((champs.reverse.dedup.reverse).map (fun t => (t, champs.count t))) :=
  List.mergeSort_perm _ _

theorem outputTable_mem {champs : List String} {t : String} {c : ℕ} :
    (t, c) ∈ outputTable champs ↔ t ∈ champs ∧ c = champs.count t := by
  rw [(outputTable_perm champs).mem_iff, List.mem_map]
  constructor
  · rintro ⟨a, ha, hac⟩
    have h1 : a = t := congrArg Prod.fst hac
    have h2 : champs.count a = c := congrArg Prod.snd hac
    subst h1
    refine ⟨?_, h2.symm⟩
    have := List.mem_reverse.mp ha
    rw [List.mem_dedup, List.mem_reverse] at this
    exact this
  · rintro ⟨ht, hc⟩
    refine ⟨t, ?_, by rw [hc]⟩
    rw [List.mem_reverse, List.mem_dedup, List.mem_reverse]
    exact ht

theorem outputTable_fst_nodup (champs : List String) :
    ((outputTable champs).map Prod.fst).Nodup := by
  have hperm := (outputTable_perm champs).map Prod.fst
  apply hperm.nodup_iff.mpr
  have : ((champs.reverse.dedup.reverse).map
      (fun t => (t, champs.count t))).map Prod.fst = champs.reverse.dedup.reverse := by
    rw [List.map_map]
    have hid : (Prod.fst ∘ fun t => (t, champs.count t)) = id := rfl
    rw [hid, List.map_id]
  rw [this]
  exact List.nodup_reverse.mpr (List.nodup_dedup champs.reverse)

theorem outputTable_sorted (champs : List String) :
    (outputTable champs).Pairwise (fun x y => y.2 ≤ x.2) := by
  have hpw := @List.sorted_mergeSort (String × ℕ)
    (fun x y => decide (y.2 ≤ x.2))
    (fun a b c h1 h2 => by
      simp only [decide_eq_true_eq] at *
      omega)
    (fun a b => by
      simpa using Nat.le_total b.2 a.2)
    ((champs.reverse.dedup.reverse).map (fun t => (t, champs.count t)))
  exact hpw.imp (fun h => by simpa using h)

/-! ### Concrete facts about the configured field and ratings -/

theorem ratings_mem_bounds :
    ∀ e ∈ TEAMS, ∃ r, RATINGS.lookup e.2 = some r ∧ 1535 ≤ r ∧ r ≤ 2008 := by
  intro e he
  fin_cases he <;> exact ⟨_, rfl, by norm_num, by norm_num⟩

theorem ratings_mem_isSome : ∀ e ∈ TEAMS, (RATINGS.lookup e.2).isSome := by
  decide

theorem ratings_lt_cornell :
    ∀ e ∈ TEAMS, e.2 ≠ "Cornell" → ∃ r, RATINGS.lookup e.2 = some r ∧ r < 2008 := by
  intro e he hne
  fin_cases he
  · exact absurd rfl hne
  all_goals exact ⟨_, rfl, by norm_num⟩

theorem cornell_lookup : RATINGS.lookup "Cornell" = some 2008 := rfl

theorem seedOrder_TEAMS : seedOrder TEAMS =
    [(1, "Cornell"), (16, "Albany"), (2, "Maryland"), (15, "Air Force"),
     (3, "Princeton"), (14, "Towson"), (4, "Ohio State"), (13, "Notre Dame"),
     (5, "Penn State"), (12, "Colgate"), (6, "Syracuse"), (11, "Harvard"),
     (7, "Duke"), (10, "Georgetown"), (8, "North Carolina"), (9, "Richmond")] := by
  simp only [seedOrder]
  rw [List.mergeSort_of_sorted (by decide)]
  rfl

/-! ### One boundedly-unbalanced round with high uniform draws:
every second (odd-position) entry wins -/

/-- The entries at the odd positions of a list: the second entry of each
adjacent pair. -/
def oddIndexEntries : List (ℕ × String) → List (ℕ × String)
  | _ :: b :: rest => b :: oddIndexEntries rest
  | _ => []

theorem playRound_underdog {store : List (String × ℝ)} {lo hi : ℝ}
    (hwidth : hi - lo ≤ 800) :
    ∀ (l : List (ℕ × String)) (s : ℕ → ℝ) (n0 : ℕ),
      (∀ n, (0.991 : ℝ) ≤ s n) →
      (∀ e ∈ l, ∃ r, store.lookup e.2 = some r ∧ lo ≤ r ∧ r ≤ hi) →
      Even l.length →
      ∃ m, playRound 0 store l (s, n0) = .ok (oddIndexEntries l, (s, m))
  | [], s, n0, _, _, _ => ⟨n0, by simp only [playRound, oddIndexEntries]⟩
  | [x], _, _, _, _, he => by simp at he
  | a :: b :: rest, s, n0, hs, hr, he => by
      obtain ⟨ra, hra, hlo_a, hhi_a⟩ := hr a (by simp)
      obtain ⟨rb, hrb, hlo_b, hhi_b⟩ := hr b (by simp)
      have hwp := winProb_zero_eq ((s, n0) : RNG) hra hrb
      have hple : logistic (ra - rb) ≤ 100 / 101 := logistic_le_of_le (by linarith)
      have hnot : ¬ (s n0 < logistic (ra - rb)) := by
        push_neg
        calc logistic (ra - rb) ≤ 100 / 101 := hple
        _ ≤ 0.991 := by norm_num
        _ ≤ s n0 := hs n0
      have he' : Even rest.length := by
        rcases he with ⟨k, hk⟩
        simp only [List.length_cons] at hk
        exact ⟨k - 1, by omega⟩
      obtain ⟨m, hrest⟩ := playRound_underdog hwidth rest s (n0 + 1) hs
        (fun e hee => hr e (by simp [hee])) he'
      refine ⟨m, ?_⟩
      have hdraw : (RNG.draw (s, n0)) = (s n0, (s, n0 + 1)) := rfl
      simp only [playRound, oddIndexEntries, hwp, hdraw]
      rw [if_neg hnot]
      simp only [hrest]

/-! ### Rounds with noise disabled keep the stream and only advance the
counter -/

theorem playRound_zero_stream {store : List (String × ℝ)} :
    ∀ (l : List (ℕ × String)) (s : ℕ → ℝ) (n0 : ℕ),
      Even l.length → (∀ e ∈ l, (store.lookup e.2).isSome) →
      ∃ ws m, playRound 0 store l (s, n0) = .ok (ws, (s, m)) ∧ ∀ w ∈ ws, w ∈ l
  | [], s, n0, _, _ => ⟨[], n0, by simp only [playRound], by simp⟩
  | [x], _, _, he, _ => by simp at he
  | a :: b :: rest, s, n0, he, hso => by
      obtain ⟨ra, hra⟩ :=
        Option.isSome_iff_exists.mp (hso a (by simp))
      obtain ⟨rb, hrb⟩ :=
        Option.isSome_iff_exists.mp (hso b (by simp))
      have hwp := winProb_zero_eq ((s, n0) : RNG) hra hrb
      have he' : Even rest.length := by
        rcases he with ⟨k, hk⟩
        simp only [List.length_cons] at hk
        exact ⟨k - 1, by omega⟩
      obtain ⟨ws, m, hrest, hmem⟩ := playRound_zero_stream rest s (n0 + 1) he'
        (fun e hee => hso e (by simp [hee]))
      refine ⟨(if s n0 < logistic (ra - rb) then a else b) :: ws, m, ?_, ?_⟩
      · have hdraw : (RNG.draw (s, n0)) = (s n0, (s, n0 + 1)) := rfl
        simp only [playRound, hwp, hdraw, hrest]
      · intro w hw
        rcases List.mem_cons.mp hw with h | h
        · subst h
          by_cases hc : s n0 < logistic (ra - rb) <;> simp [hc]
        · simp [hmem w h]

/-! ### Single steps of the tournament loop -/

theorem bracketLoop_single {sd : ℝ} {store : List (String × ℝ)}
    (e : ℕ × String) (g : RNG) : bracketLoop sd store [e] g = .ok (e, g) := by
  rw [bracketLoop]
  simp

theorem bracketLoop_step {sd : ℝ} {store : List (String × ℝ)}
    {l ws : List (ℕ × String)} {g g' : RNG}
    (h1 : 1 < l.length) (h : playRound sd store l g = .ok (ws, g')) :
    bracketLoop sd store l g = bracketLoop sd store ws g' := by
  conv_lhs => rw [bracketLoop]
  rw [dif_pos h1]
  split
  · rename_i e' heq
    rw [h] at heq
    exact absurd heq (by simp)
  · rename_i nx g2 heq
    rw [h] at heq
    injection heq with h2
    injection h2 with ha hb'
    subst ha
    subst hb'
    rfl

/-! ### With noise off and all uniform draws at most 1/2, Cornell
(the strictly highest-rated entry, seeded first) wins every round -/

theorem bracketLoop_cornell :
    ∀ (j : ℕ) (sc : ℕ) (rest : List (ℕ × String)) (s : ℕ → ℝ) (n0 : ℕ),
      (∀ n, s n ≤ 1 / 2) →
      ((sc, "Cornell") :: rest).length = 2 ^ j →
      (∀ e ∈ rest, e ∈ TEAMS ∧ e.2 ≠ "Cornell") →
      ∃ m, bracketLoop 0 RATINGS ((sc, "Cornell") :: rest) (s, n0) =
        .ok ((sc, "Cornell"), (s, m)) := by
  intro j
  induction j with
  | zero =>
      intro sc rest s n0 hs hlen hmem
      have hrest : rest = [] := by
        simp only [List.length_cons, pow_zero] at hlen
        exact List.length_eq_zero.mp (by omega)
      subst hrest
      exact ⟨n0, bracketLoop_single _ _⟩
  | succ j ih =>
      intro sc rest s n0 hs hlen hmem
      match rest with
      | [] =>
          exfalso
          simp only [List.length_cons, List.length_nil] at hlen
          have : 2 ≤ 2 ^ (j + 1) := by
            calc 2 = 2 ^ 1 := by norm_num
            _ ≤ 2 ^ (j + 1) := Nat.pow_le_pow_right (by norm_num) (by omega)
          omega
      | b :: rest' =>
          obtain ⟨rb, hrb, hrb_lt⟩ :=
            ratings_lt_cornell b (hmem b (by simp)).1 (hmem b (by simp)).2
          have hwp := winProb_zero_eq ((s, n0) : RNG) cornell_lookup hrb
          have hu : s n0 < logistic (2008 - rb) :=
            lt_of_le_of_lt (hs n0) (logistic_gt_half (by linarith))
          have he' : Even rest'.length := by
            simp only [List.length_cons] at hlen
            rw [Nat.even_iff]
            rw [pow_succ] at hlen
            omega
          obtain ⟨ws, m1, hrest, hmemws⟩ := playRound_zero_stream rest' s (n0 + 1)
            he' (fun e hee => ratings_mem_isSome e (hmem e (by simp [hee])).1)
          have hround : playRound 0 RATINGS ((sc, "Cornell") :: b :: rest') (s, n0) =
              .ok ((sc, "Cornell") :: ws, (s, m1)) := by
            have hdraw : (RNG.draw (s, n0)) = (s n0, (s, n0 + 1)) := rfl
            simp only [playRound, hwp, hdraw, hrest]
            rw [if_pos hu]
          have hlen2 : ((sc, "Cornell") :: ws).length = 2 ^ j := by
            have hl := playRound_ok_length hround
            rw [hlen, pow_succ] at hl
            rw [hl]
            omega
          have h1 : 1 < ((sc, "Cornell") :: b :: rest').length := by
            simp
          obtain ⟨m, hloop⟩ := ih sc ws s m1 hs hlen2
            (fun e hee => hmem e (List.mem_cons_of_mem b (hmemws e hee)))
          exact ⟨m, (bracketLoop_step h1 hround).trans hloop⟩

/-- With noise disabled and every uniform draw at most `1/2`, the simulated
tournament on the configured field always crowns Cornell. -/
theorem simulate_TEAMS_low_draws (s : ℕ → ℝ) (n0 : ℕ) (hs : ∀ n, s n ≤ 1 / 2) :
    ∃ m, simulateBracket 0 TEAMS RATINGS (s, n0) = .ok ("Cornell", (s, m)) := by
  obtain ⟨m, hloop⟩ := bracketLoop_cornell 4 1
    [(16, "Albany"), (2, "Maryland"), (15, "Air Force"),
     (3, "Princeton"), (14, "Towson"), (4, "Ohio State"), (13, "Notre Dame"),
     (5, "Penn State"), (12, "Colgate"), (6, "Syracuse"), (11, "Harvard"),
     (7, "Duke"), (10, "Georgetown"), (8, "North Carolina"), (9, "Richmond")]
    s n0 hs (by decide) (by decide)
  refine ⟨m, ?_⟩
  unfold simulateBracket
  rw [if_pos (by decide : 1 < TEAMS.length ∧
    TEAMS.length &&& (TEAMS.length - 1) = 0)]
  rw [seedOrder_TEAMS, hloop]

/-- With noise disabled and every uniform draw equal to `0.991`, every match
of the configured field is an upset (all probabilities are at most
`100/101 < 0.991`), and the simulated tournament crowns Richmond — not the
top-rated Cornell. -/
theorem simulate_TEAMS_high_draws :
    ∃ m, simulateBracket 0 TEAMS RATINGS ((fun _ : ℕ => (0.991 : ℝ)), 0) =
      .ok ("Richmond", ((fun _ : ℕ => (0.991 : ℝ)), m)) := by
  have hw : (2008 : ℝ) - 1535 ≤ 800 := by norm_num
  have hs : ∀ n, (0.991 : ℝ) ≤ (fun _ : ℕ => (0.991 : ℝ)) n := fun _ => le_refl _
  have hb : ∀ (l : List (ℕ × String)), (∀ e ∈ l, e ∈ TEAMS) →
      ∀ e ∈ l, ∃ r, RATINGS.lookup e.2 = some r ∧ (1535 : ℝ) ≤ r ∧ r ≤ 2008 :=
    fun l hl e he => ratings_mem_bounds e (hl e he)
  obtain ⟨m1, h1⟩ := playRound_underdog hw
    [(1, "Cornell"), (16, "Albany"), (2, "Maryland"), (15, "Air Force"),
     (3, "Princeton"), (14, "Towson"), (4, "Ohio State"), (13, "Notre Dame"),
     (5, "Penn State"), (12, "Colgate"), (6, "Syracuse"), (11, "Harvard"),
     (7, "Duke"), (10, "Georgetown"), (8, "North Carolina"), (9, "Richmond")]
    (fun _ : ℕ => (0.991 : ℝ)) 0 hs (hb _ (by decide)) (by decide)
  rw [show oddIndexEntries
    [(1, "Cornell"), (16, "Albany"), (2, "Maryland"), (15, "Air Force"),
     (3, "Princeton"), (14, "Towson"), (4, "Ohio State"), (13, "Notre Dame"),
     (5, "Penn State"), (12, "Colgate"), (6, "Syracuse"), (11, "Harvard"),
     (7, "Duke"), (10, "Georgetown"), (8, "North Carolina"), (9, "Richmond")] =
    [(16, "Albany"), (15, "Air Force"), (14, "Towson"), (13, "Notre Dame"),
     (12, "Colgate"), (11, "Harvard"), (10, "Georgetown"), (9, "Richmond")]
    from by decide] at h1
  obtain ⟨m2, h2⟩ := playRound_underdog hw
    [(16, "Albany"), (15, "Air Force"), (14, "Towson"), (13, "Notre Dame"),
     (12, "Colgate"), (11, "Harvard"), (10, "Georgetown"), (9, "Richmond")]
    (fun _ : ℕ => (0.991 : ℝ)) m1 hs (hb _ (by decide)) (by decide)
  rw [show oddIndexEntries
    [(16, "Albany"), (15, "Air Force"), (14, "Towson"), (13, "Notre Dame"),
     (12, "Colgate"), (11, "Harvard"), (10, "Georgetown"), (9, "Richmond")] =
    [(15, "Air Force"), (13, "Notre Dame"), (11, "Harvard"), (9, "Richmond")]
    from by decide] at h2
  obtain ⟨m3, h3⟩ := playRound_underdog hw
    [(15, "Air Force"), (13, "Notre Dame"), (11, "Harvard"), (9, "Richmond")]
    (fun _ : ℕ => (0.991 : ℝ)) m2 hs (hb _ (by decide)) (by decide)
  rw [show oddIndexEntries
    [(15, "Air Force"), (13, "Notre Dame"), (11, "Harvard"), (9, "Richmond")] =
    [(13, "Notre Dame"), (9, "Richmond")] from by decide] at h3
  obtain ⟨m4, h4⟩ := playRound_underdog hw
    [(13, "Notre Dame"), (9, "Richmond")]
    (fun _ : ℕ => (0.991 : ℝ)) m3 hs (hb _ (by decide)) (by decide)
  rw [show oddIndexEntries [(13, "Notre Dame"), (9, "Richmond")] =
    [(9, "Richmond")] from by decide] at h4
  have hchain := ((((bracketLoop_step (by decide) h1).trans
    (bracketLoop_step (by decide) h2)).trans
    (bracketLoop_step (by decide) h3)).trans
    (bracketLoop_step (by decide) h4)).trans
    (bracketLoop_single (9, "Richmond") ((fun _ : ℕ => (0.991 : ℝ)), m4))
  refine ⟨m4, ?_⟩
  unfold simulateBracket
  rw [if_pos (by decide : 1 < TEAMS.length ∧
    TEAMS.length &&& (TEAMS.length - 1) = 0)]
  rw [seedOrder_TEAMS, hchain]

/-! ### The claims -/

/-- C1: for every total run count and every batch size ≥ 1 (on a valid
power-of-two field whose teams are all in the rating store), the aggregation
driver performs exactly `nRuns` tournament simulations — `nRuns / batchSize`
full batches followed by a partial batch of the remainder exactly when the
remainder is nonzero — and the resulting tally's counts sum exactly to
`nRuns`. -/
theorem claim_aggregation_total_runs (sd : ℝ) (teams : List (ℕ × String))
    (store : List (String × ℝ)) (nRuns batchSize : ℕ) (g : RNG) (j : ℕ)
    (hb : 1 ≤ batchSize) (hj : 1 ≤ j) (hlen : teams.length = 2 ^ j)
    (hs : ∀ e ∈ teams, (store.lookup e.2).isSome) :
    ∃ cs g', runChampions sd teams store nRuns batchSize g = .ok (cs, g') ∧
      runLargeSimulation sd teams store nRuns batchSize g =
        .ok (outputTable cs, g') ∧
      cs.length = nRuns ∧
      ∑ t in (↑cs : Multiset String).toFinset,
        (↑cs : Multiset String).count t = nRuns := by
  obtain ⟨cs, g', hcs, hlen', hmem⟩ := runChampions_ok g hb
    (fun g0 => simulateBracket_ok g0 j hj hlen hs)
  refine ⟨cs, g', hcs, runLargeSimulation_eq hcs, hlen', ?_⟩
  rw [Multiset.toFinset_sum_count_eq]
  simpa using hlen'

theorem claim_aggregation_total_runs_witness :
    ∃ cs g', runChampions 0 TEAMS RATINGS 5 2 ((fun _ : ℕ => (0 : ℝ)), 0) =
        .ok (cs, g') ∧
      runLargeSimulation 0 TEAMS RATINGS 5 2 ((fun _ : ℕ => (0 : ℝ)), 0) =
        .ok (outputTable cs, g') ∧
      cs.length = 5 ∧
      ∑ t in (↑cs : Multiset String).toFinset,
        (↑cs : Multiset String).count t = 5 :=
  claim_aggregation_total_runs 0 TEAMS RATINGS 5 2 ((fun _ : ℕ => (0 : ℝ)), 0)
    4 (by norm_num) (by norm_num) (by decide) ratings_mem_isSome

/-- C2: on any input list whose seeds are exactly `1..N` in any order,
`_seed_order` places seed `k+1` at position `2k` and seed `N-k` at position
`2k+1`, both entries taken from the input list. -/
theorem claim_seed_order_pairing (l : List (ℕ × String)) (N : ℕ)
    (hperm : List.Perm (l.map Prod.fst) (List.range' 1 N)) :
    ∀ k, k < N / 2 →
      ∃ e f, (seedOrder l)[2 * k]? = some e ∧
        (seedOrder l)[2 * k + 1]? = some f ∧
        e ∈ l ∧ f ∈ l ∧ e.1 = k + 1 ∧ f.1 = N - k :=
  fun _ hk => seedOrder_pairs hperm hk

theorem claim_seed_order_pairing_witness :
    ∃ e f, (seedOrder [(2, "B"), (1, "A")])[2 * 0]? = some e ∧
      (seedOrder [(2, "B"), (1, "A")])[2 * 0 + 1]? = some f ∧
      e ∈ [(2, "B"), (1, "A")] ∧ f ∈ [(2, "B"), (1, "A")] ∧
      e.1 = 0 + 1 ∧ f.1 = 2 - 0 :=
  claim_seed_order_pairing [(2, "B"), (1, "A")] 2 (by decide) 0 (by norm_num)

/-- C3: on an even-length input whose teams are all in the rating store, one
round returns exactly half as many winners, in matchup order: the `k`-th
winner is one of the two entries at positions `2k` and `2k+1`, and it is the
even-position entry exactly when the uniform draw is below the computed win
probability, the odd-position entry otherwise. -/
theorem claim_play_round_contract (sd : ℝ) (store : List (String × ℝ))
    (l : List (ℕ × String)) (g : RNG)
    (he : Even l.length) (hs : ∀ e ∈ l, (store.lookup e.2).isSome) :
    ∃ ws g', playRound sd store l g = .ok (ws, g') ∧
      ws.length = l.length / 2 ∧
      ∃ gs : ℕ → RNG, gs 0 = g ∧ gs ws.length = g' ∧
        ∀ k, k < ws.length →
          ∃ a b w p g1,
            l[2 * k]? = some a ∧ l[2 * k + 1]? = some b ∧ ws[k]? = some w ∧
            winProb sd store a.2 b.2 (gs k) = .ok (p, g1) ∧
            gs (k + 1) = g1.draw.2 ∧
            w = if g1.draw.1 < p then a else b := by
  obtain ⟨ws, g', hr⟩ := @playRound_isOk sd store l g he hs
  exact ⟨ws, g', hr, playRound_ok_length hr, playRound_getElem hr⟩

theorem claim_play_round_contract_witness :
    ∃ ws g', playRound RATING_NOISE_SD RATINGS
        [(1, "Cornell"), (2, "Maryland"), (3, "Princeton"), (4, "Ohio State")]
        ((fun _ : ℕ => (0 : ℝ)), 0) = .ok (ws, g') ∧
      ws.length = [(1, "Cornell"), (2, "Maryland"), (3, "Princeton"),
        (4, "Ohio State")].length / 2 ∧
      ∃ gs : ℕ → RNG, gs 0 = ((fun _ : ℕ => (0 : ℝ)), 0) ∧
        gs ws.length = g' ∧
        ∀ k, k < ws.length →
          ∃ a b w p g1,
            [(1, "Cornell"), (2, "Maryland"), (3, "Princeton"),
              (4, "Ohio State")][2 * k]? = some a ∧
            [(1, "Cornell"), (2, "Maryland"), (3, "Princeton"),
              (4, "Ohio State")][2 * k + 1]? = some b ∧ ws[k]? = some w ∧
            winProb RATING_NOISE_SD RATINGS a.2 b.2 (gs k) = .ok (p, g1) ∧
            gs (k + 1) = g1.draw.2 ∧
            w = if g1.draw.1 < p then a else b :=
  claim_play_round_contract RATING_NOISE_SD RATINGS
    [(1, "Cornell"), (2, "Maryland"), (3, "Princeton"), (4, "Ohio State")]
    ((fun _ : ℕ => (0 : ℝ)), 0) (by decide) (by decide)

/-- C4: for every team field whose size is a power of two greater than one
(with all teams present in the rating store), `simulate_bracket` terminates
with a champion that is one of the input teams. -/
theorem claim_simulate_bracket_terminates (sd : ℝ)
    (teams : List (ℕ × String)) (store : List (String × ℝ)) (g : RNG)
    (j : ℕ) (hj : 1 ≤ j) (hlen : teams.length = 2 ^ j)
    (hs : ∀ e ∈ teams, (store.lookup e.2).isSome) :
    ∃ c g', simulateBracket sd teams store g = .ok (c, g') ∧
      c ∈ teams.map Prod.snd :=
  simulateBracket_ok g j hj hlen hs

theorem claim_simulate_bracket_terminates_witness :
    ∃ c g', simulateBracket RATING_NOISE_SD TEAMS RATINGS
        ((fun _ : ℕ => (0 : ℝ)), 0) = .ok (c, g') ∧
      c ∈ TEAMS.map Prod.snd :=
  claim_simulate_bracket_terminates RATING_NOISE_SD TEAMS RATINGS
    ((fun _ : ℕ => (0 : ℝ)), 0) 4 (by norm_num) (by decide) ratings_mem_isSome

/-- C6: for teams present in the store the win probability lies in `(0,1)`;
with noise disabled, swapping the arguments complements the probability, and
equal ratings give exactly `1/2`. -/
theorem claim_win_prob_range_symmetry (sd : ℝ) (store : List (String × ℝ))
    (a b : String) (ra rb : ℝ) (g : RNG)
    (ha : store.lookup a = some ra) (hb : store.lookup b = some rb) :
    (∀ p g', winProb sd store a b g = .ok (p, g') → 0 < p ∧ p < 1) ∧
    (∃ p q, winProb 0 store a b g = .ok (p, g) ∧
      winProb 0 store b a g = .ok (q, g) ∧ q = 1 - p ∧
      (ra = rb → p = 1 / 2)) := by
  constructor
  · intro p g' h
    obtain ⟨d, hd⟩ := winProb_value h
    exact hd ▸ ⟨logistic_pos d, logistic_lt_one d⟩
  · refine ⟨logistic (ra - rb), logistic (rb - ra),
      winProb_zero_eq g ha hb, winProb_zero_eq g hb ha, ?_, ?_⟩
    · rw [show rb - ra = -(ra - rb) by ring, logistic_neg_eq]
    · intro hrr
      rw [hrr, sub_self, logistic_zero]

theorem claim_win_prob_range_symmetry_witness :
    (∀ p g', winProb RATING_NOISE_SD RATINGS "Duke" "Harvard"
        ((fun _ : ℕ => (0 : ℝ)), 0) = .ok (p, g') → 0 < p ∧ p < 1) ∧
    (∃ p q, winProb 0 RATINGS "Duke" "Harvard" ((fun _ : ℕ => (0 : ℝ)), 0) =
        .ok (p, ((fun _ : ℕ => (0 : ℝ)), 0)) ∧
      winProb 0 RATINGS "Harvard" "Duke" ((fun _ : ℕ => (0 : ℝ)), 0) =
        .ok (q, ((fun _ : ℕ => (0 : ℝ)), 0)) ∧ q = 1 - p ∧
      ((1765 : ℝ) = 1767 → p = 1 / 2)) :=
  claim_win_prob_range_symmetry RATING_NOISE_SD RATINGS "Duke" "Harvard"
    1765 1767 ((fun _ : ℕ => (0 : ℝ)), 0) rfl rfl

/-- C7: with noise disabled, a strictly higher configured rating gives a win
probability strictly above `1/2`. -/
theorem claim_win_prob_favors_higher (store : List (String × ℝ))
    (a b : String) (ra rb : ℝ) (g : RNG)
    (ha : store.lookup a = some ra) (hb : store.lookup b = some rb)
    (hab : rb < ra) :
    ∃ p, winProb 0 store a b g = .ok (p, g) ∧ 1 / 2 < p :=
  ⟨logistic (ra - rb), winProb_zero_eq g ha hb,
    logistic_gt_half (by linarith)⟩

theorem claim_win_prob_favors_higher_witness :
    ∃ p, winProb 0 RATINGS "Cornell" "Maryland" ((fun _ : ℕ => (0 : ℝ)), 0) =
      .ok (p, ((fun _ : ℕ => (0 : ℝ)), 0)) ∧ 1 / 2 < p :=
  claim_win_prob_favors_higher RATINGS "Cornell" "Maryland" 2008 1923
    ((fun _ : ℕ => (0 : ℝ)), 0) rfl rfl (by norm_num)

/-- C8: the win-probability model raises `KeyError` exactly when one of the
two team identifiers is missing from the rating store, and never fails when
both are present. -/
theorem claim_win_prob_missing_team_errors (sd : ℝ)
    (store : List (String × ℝ)) (a b : String) (g : RNG) :
    ((store.lookup a = none ∨ store.lookup b = none) →
      winProb sd store a b g = .error .keyError) ∧
    ((store.lookup a).isSome → (store.lookup b).isSome →
      ∃ p g', winProb sd store a b g = .ok (p, g')) :=
  ⟨winProb_error g, fun ha hb => winProb_ok g ha hb⟩

theorem claim_win_prob_missing_team_errors_witness :
    winProb RATING_NOISE_SD RATINGS "Cornell" "Buffalo"
        ((fun _ : ℕ => (0 : ℝ)), 0) = .error .keyError ∧
    ∃ p g', winProb RATING_NOISE_SD RATINGS "Cornell" "Maryland"
        ((fun _ : ℕ => (0 : ℝ)), 0) = .ok (p, g') :=
  ⟨(claim_win_prob_missing_team_errors RATING_NOISE_SD RATINGS "Cornell"
      "Buffalo" ((fun _ : ℕ => (0 : ℝ)), 0)).1 (Or.inr rfl),
    (claim_win_prob_missing_team_errors RATING_NOISE_SD RATINGS "Cornell"
      "Maryland" ((fun _ : ℕ => (0 : ℝ)), 0)).2 rfl rfl⟩

/-- C9: a single-team field trips the `assert` (the guard also requires
`n > 1`, not just a power of two), while a two-team field is accepted. -/
theorem claim_singleton_field_assertion :
    (∀ (sd : ℝ) (store : List (String × ℝ)) (t : ℕ × String) (g : RNG),
      simulateBracket sd [t] store g = .error .assertionError) ∧
    (∃ c g', simulateBracket 0 [(1, "Cornell"), (2, "Maryland")] RATINGS
      ((fun _ : ℕ => (0 : ℝ)), 0) = .ok (c, g')) := by
  constructor
  · intro sd store t g
    unfold simulateBracket
    rw [if_neg (by simp)]
  · obtain ⟨c, g', h, _⟩ := @simulateBracket_ok 0 RATINGS
      [(1, "Cornell"), (2, "Maryland")] ((fun _ : ℕ => (0 : ℝ)), 0) 1
      (le_refl 1) (by decide) (by decide)
    exact ⟨c, g', h⟩

/-- C10: the table built by `run_large_simulation` has exactly one row per
team that won at least one championship (none for zero-count teams), each row
carrying that team's count, and rows are ordered by non-increasing count. -/
theorem claim_output_table_rows (sd : ℝ) (teams : List (ℕ × String))
    (store : List (String × ℝ)) (nRuns batchSize : ℕ) (g : RNG) (j : ℕ)
    (hb : 1 ≤ batchSize) (hj : 1 ≤ j) (hlen : teams.length = 2 ^ j)
    (hs : ∀ e ∈ teams, (store.lookup e.2).isSome) :
    ∃ cs g', runChampions sd teams store nRuns batchSize g = .ok (cs, g') ∧
      runLargeSimulation sd teams store nRuns batchSize g =
        .ok (outputTable cs, g') ∧
      (∀ t c, (t, c) ∈ outputTable cs ↔ t ∈ cs ∧ c = cs.count t) ∧
      (∀ p ∈ outputTable cs, 1 ≤ p.2) ∧
      ((outputTable cs).map Prod.fst).Nodup ∧
      (outputTable cs).Pairwise (fun x y => y.2 ≤ x.2) := by
  obtain ⟨cs, g', hcs, _, _⟩ := runChampions_ok g hb
    (fun g0 => simulateBracket_ok g0 j hj hlen hs)
  refine ⟨cs, g', hcs, runLargeSimulation_eq hcs,
    fun t c => outputTable_mem, ?_, outputTable_fst_nodup cs,
    outputTable_sorted cs⟩
  rintro ⟨t, c⟩ hp
  obtain ⟨ht, hc⟩ := outputTable_mem.mp hp
  exact hc ▸ Nat.pos_of_ne_zero (fun h0 => (List.count_eq_zero.mp h0) ht)

theorem claim_output_table_rows_witness :
    ∃ cs g', runChampions 0 TEAMS RATINGS 3 2 ((fun _ : ℕ => (0 : ℝ)), 0) =
        .ok (cs, g') ∧
      runLargeSimulation 0 TEAMS RATINGS 3 2 ((fun _ : ℕ => (0 : ℝ)), 0) =
        .ok (outputTable cs, g') ∧
      (∀ t c, (t, c) ∈ outputTable cs ↔ t ∈ cs ∧ c = cs.count t) ∧
      (∀ p ∈ outputTable cs, 1 ≤ p.2) ∧
      ((outputTable cs).map Prod.fst).Nodup ∧
      (outputTable cs).Pairwise (fun x y => y.2 ≤ x.2) :=
  claim_output_table_rows 0 TEAMS RATINGS 3 2 ((fun _ : ℕ => (0 : ℝ)), 0) 4
    (by norm_num) (by norm_num) (by decide) ratings_mem_isSome

/-- C5 as stated is false on the code: with noise 0, Cornell strictly highest
rated among the 16 distinct-rated configured teams, a run whose uniform draws
all equal `0.991` (a legitimate uniform value in `[0,1)`) crowns Richmond —
so the top-rated team does not win 100% of simulated tournaments. -/
theorem claim_top_rated_always_wins_counterexample :
    RATINGS.lookup "Cornell" = some 2008 ∧
    (∀ p ∈ RATINGS, p.1 ≠ "Cornell" → p.2 < 2008) ∧
    ((0 : ℝ) ≤ 0.991 ∧ (0.991 : ℝ) < 1) ∧
    ∃ m, simulateBracket 0 TEAMS RATINGS ((fun _ : ℕ => (0.991 : ℝ)), 0) =
      .ok ("Richmond", ((fun _ : ℕ => (0.991 : ℝ)), m)) ∧
      "Richmond" ≠ "Cornell" := by
  refine ⟨rfl, ?_, ⟨by norm_num, by norm_num⟩, ?_⟩
  · intro p hp hne
    fin_cases hp
    · exact absurd rfl hne
    all_goals norm_num
  · obtain ⟨m, h⟩ := simulate_TEAMS_high_draws
    exact ⟨m, h, by decide⟩

/-- C5 amended: with noise disabled every matchup favors the higher-rated
side with probability strictly above `1/2` but not with certainty; the
top-rated Cornell is guaranteed the championship only on runs whose uniform
draws all stay at or below `1/2`. -/
theorem claim_top_rated_always_wins_amended (s : ℕ → ℝ) (n0 : ℕ)
    (hs : ∀ n, s n ≤ 1 / 2) :
    ∃ m, simulateBracket 0 TEAMS RATINGS (s, n0) = .ok ("Cornell", (s, m)) :=
  simulate_TEAMS_low_draws s n0 hs

theorem claim_top_rated_always_wins_amended_witness :
    ∃ m, simulateBracket 0 TEAMS RATINGS ((fun _ : ℕ => (0 : ℝ)), 0) =
      .ok ("Cornell", ((fun _ : ℕ => (0 : ℝ)), m)) :=
  claim_top_rated_always_wins_amended (fun _ : ℕ => (0 : ℝ)) 0
    (fun _ => by norm_num)
